import Mathlib

/-!
Verification of the madmom `io` module.

The functions `load_tempo` and `write_tempo` (and the event/beat/chord
writers) are shallowly embedded here.  Numeric values are modelled as
rationals; arrays become lists; Python exceptions become the `Except`
monad.  Each definition mirrors one function (or one pipeline stage of
`load_tempo`) of `madmom/io/__init__.py`.
-/

namespace MadmomIO

/-- Relation ordering tempo/strength rows by descending strength
(the second component): `strength_ge a b` holds when the strength of `b`
is at most the strength of `a`.  A stable sort with respect to this
relation models `argsort(-strengths, kind=mergesort)` in `load_tempo`. -/
def strength_ge (a b : ℚ × ℚ) : Prop := b.2 ≤ a.2

instance : DecidableRel strength_ge :=
  fun a b => inferInstanceAs (Decidable (b.2 ≤ a.2))

instance : IsTotal (ℚ × ℚ) strength_ge :=
  ⟨fun a b => le_total b.2 a.2⟩

instance : IsTrans (ℚ × ℚ) strength_ge :=
  ⟨fun _ _ _ h1 h2 => le_trans h2 h1⟩

/-- Values strictly greater than `split_value` are interpreted as tempi:
`tempi = values[values > split_value]`. -/
def tempi_of (values : List ℚ) (split_value : ℚ) : List ℚ :=
  values.filter (fun v => split_value < v)

/-- Values less than or equal to `split_value` are interpreted as strengths:
`strengths = values[values <= split_value]`. -/
def strengths_of (values : List ℚ) (split_value : ℚ) : List ℚ :=
  values.filter (fun v => v ≤ split_value)

/-- The strength sum `strength_sum = np.sum(strengths)`, computed once,
before the completion and uniform-distribution steps, and reused by the
normalization step. -/
def strength_sum_of (values : List ℚ) (split_value : ℚ) : ℚ :=
  (strengths_of values split_value).sum

/-- The completion trigger `len(tempi) - len(strengths) == 1` (Python
integer subtraction, hence computed in `ℤ`). -/
def needs_completion (values : List ℚ) (split_value : ℚ) : Bool :=
  ((tempi_of values split_value).length : ℤ) -
    ((strengths_of values split_value).length : ℤ) == 1

/-- Strengths after the completion step: when exactly one more tempo than
strengths is given, `strengths = np.append(strengths, 1. - strength_sum)`;
otherwise the strengths are unchanged. -/
def completed_strengths (values : List ℚ) (split_value : ℚ) : List ℚ :=
  if needs_completion values split_value then
    strengths_of values split_value ++ [1 - strength_sum_of values split_value]
  else
    strengths_of values split_value

/-- Strengths after the uniform-distribution step: if `strength_sum == 0`
then `strengths = np.ones_like(tempi) / float(len(tempi))`, replacing
whatever the completion step produced. -/
def uniform_or_completed (values : List ℚ) (split_value : ℚ) : List ℚ :=
  if strength_sum_of values split_value == 0 then
    (tempi_of values split_value).map
      (fun _ => 1 / ((tempi_of values split_value).length : ℚ))
  else
    completed_strengths values split_value

/-- Strengths after the optional normalization step:
`strengths /= float(strength_sum)` where `strength_sum` is the sum
captured before completion (see `strength_sum_of`). -/
def final_strengths (values : List ℚ) (split_value : ℚ)
    (norm_strengths : Bool) : List ℚ :=
  if norm_strengths then
    (uniform_or_completed values split_value).map
      (fun s => s / strength_sum_of values split_value)
  else
    uniform_or_completed values split_value

/-- The guard of the initial argument check of `load_tempo`:
`max_len is not None and max_len < 1`. -/
def bad_max_len : Option ℤ → Bool
  | none => false
  | some m => m < 1

/-- The final steps of `load_tempo` applied to the zipped rows:
optionally sort stably by descending strength
(`argsort(-strengths, kind=mergesort)`), then keep at most `max_len`
rows (`tempi[:max_len]`, `strengths[:max_len]`). -/
def arrange (pairs : List (ℚ × ℚ)) (sort : Bool)
    (max_len : Option ℤ) : List (ℚ × ℚ) :=
  let pairs2 := if sort then pairs.insertionSort strength_ge else pairs
  match max_len with
  | none => pairs2
  | some m => pairs2.take m.toNat

/-- Shallow embedding of `load_tempo` from `madmom/io/__init__.py`:
check `max_len`, split `values` into tempi and strengths by comparison
with `split_value`, capture the strength sum, complete a missing final
strength (failing when a completed strength is negative), substitute a
uniform distribution when the captured sum is zero, optionally divide by
the captured sum, check the lengths, optionally sort stably by
descending strength, and truncate to `max_len` rows of
`(tempo, strength)`. -/
def load_tempo (values : List ℚ) (split_value : ℚ := 1)
    (sort : Bool := false) (norm_strengths : Bool := false)
    (max_len : Option ℤ := none) : Except String (List (ℚ × ℚ)) :=
  if bad_max_len max_len then
    .error "max_len must be greater or equal to 1"
  else if needs_completion values split_value &&
      (completed_strengths values split_value).any (fun s => s < 0) then
    .error "strengths must be positive"
  else if (tempi_of values split_value).length !=
      (final_strengths values split_value norm_strengths).length then
    .error "tempi and strengths must have same length"
  else
    .ok (arrange
      ((tempi_of values split_value).zip
        (final_strengths values split_value norm_strengths))
      sort max_len)

/-- The `(t1, t2, strength)` triple computed by `write_tempo` before the
MIREX adjustment: defaults `(0, 0, 1)` for zero rows; for a single row a
second tempo is synthesized by doubling below 68 bpm and halving
otherwise; for two or more rows the first two tempi and the relative
strength of the first. -/
def write_tempo_raw : List (ℚ × ℚ) → ℚ × ℚ × ℚ
  | [] => (0, 0, 1)
  | [r] => (r.1, if r.1 < 68 then r.1 * 2 else r.1 / 2, 1)
  | r0 :: r1 :: _ => (r0.1, r1.1, r0.2 / (r0.2 + r1.2))

/-- Shallow embedding of `write_tempo`: compute the raw triple and, when
`mirex` is set and `t1 > t2`, swap the tempi and replace the strength
with `1 - strength`.  The file-writing side effect is not modelled; the
returned triple is. -/
def write_tempo (tempi : List (ℚ × ℚ)) (mirex : Bool := false) : ℚ × ℚ × ℚ :=
  let d := write_tempo_raw tempi
  if mirex && (d.2.1 < d.1) then (d.2.1, d.1, 1 - d.2.2) else d

/-- Shallow embedding of `write_events`: formats the events (not
modelled) and returns them.  The Python return value is modelled in
`Option`, with `none` standing for `None`. -/
def write_events {α : Type} (events : List α) : Option (List α) :=
  some events

/-- In the source, `write_onsets = write_events`. -/
def write_onsets {α : Type} : List α → Option (List α) :=
  write_events

/-- Shallow embedding of `write_beats`: it calls `write_events` for the
formatting but its body has no return statement, so the Python function
returns `None`. -/
def write_beats {α : Type} (beats : List α) : Option (List α) :=
  let _ := write_events beats
  none

/-- A chord segment row: start time, end time, and a label. -/
structure ChordSegment where
  start : ℚ
  stop : ℚ
  label : String

/-- Shallow embedding of `write_chords`: formats the segments (not
modelled) and returns them. -/
def write_chords (chords : List ChordSegment) : Option (List ChordSegment) :=
  some chords

/-! ### Helper lemmas -/

lemma sum_map_div (l : List ℚ) (c : ℚ) :
    (l.map (fun x => x / c)).sum = l.sum / c := by
  induction l with
  | nil => simp
  | cons x xs ih => simp [ih, add_div]

lemma mem_arrange {p : ℚ × ℚ} {pairs : List (ℚ × ℚ)} {sort : Bool}
    {ml : Option ℤ} (hp : p ∈ arrange pairs sort ml) : p ∈ pairs := by
  have h1 : p ∈ (if sort then pairs.insertionSort strength_ge else pairs) := by
    cases ml with
    | none => exact hp
    | some m => exact List.take_subset _ _ hp
  cases sort with
  | false => simpa using h1
  | true => exact (List.mem_insertionSort strength_ge).mp (by simpa using h1)

lemma arrange_none_perm (pairs : List (ℚ × ℚ)) (sort : Bool) :
    (arrange pairs sort none).Perm pairs := by
  cases sort with
  | false => simp [arrange]
  | true => simpa [arrange] using List.perm_insertionSort strength_ge pairs

lemma load_tempo_eq_ok (values : List ℚ) (split_value : ℚ) (sort norm : Bool)
    (ml : Option ℤ)
    (h1 : bad_max_len ml = false)
    (h2 : (needs_completion values split_value &&
      (completed_strengths values split_value).any (fun s => s < 0)) = false)
    (h3 : (tempi_of values split_value).length =
      (final_strengths values split_value norm).length) :
    load_tempo values split_value sort norm ml =
      .ok (arrange ((tempi_of values split_value).zip
        (final_strengths values split_value norm)) sort ml) := by
  simp [load_tempo, h1, h2, h3]

lemma load_tempo_ok_inv {values : List ℚ} {split_value : ℚ}
    {sort norm_strengths : Bool} {max_len : Option ℤ} {r : List (ℚ × ℚ)}
    (hok : load_tempo values split_value sort norm_strengths max_len = .ok r) :
    bad_max_len max_len = false ∧
    (needs_completion values split_value &&
      (completed_strengths values split_value).any (fun s => s < 0)) = false ∧
    (tempi_of values split_value).length =
      (final_strengths values split_value norm_strengths).length ∧
    r = arrange ((tempi_of values split_value).zip
      (final_strengths values split_value norm_strengths)) sort max_len := by
  rw [load_tempo] at hok
  split at hok
  next h1 => exact absurd hok (by simp)
  next h1 =>
    split at hok
    next h2 => exact absurd hok (by simp)
    next h2 =>
      split at hok
      next h3 => exact absurd hok (by simp)
      next h3 =>
        refine ⟨by simpa using h1, by simpa using h2, ?_, ?_⟩
        · have := (Bool.not_eq_true _).mp h3
          simpa [bne_eq_false_iff_eq] using this
        · injection hok with h
          exact h.symm

lemma filter_orderedInsert (c : ℚ) (x : ℚ × ℚ) (l : List (ℚ × ℚ)) :
    (l.orderedInsert strength_ge x).filter (fun p => p.2 = c) =
      if x.2 = c then x :: l.filter (fun p => p.2 = c)
      else l.filter (fun p => p.2 = c) := by
  induction l with
  | nil =>
    by_cases hx : x.2 = c <;> simp [List.orderedInsert, List.filter_cons, hx]
  | cons b bs ih =>
    rw [List.orderedInsert]
    by_cases hr : strength_ge x b
    · rw [if_pos hr]
      by_cases hx : x.2 = c <;> simp [List.filter_cons, hx]
    · rw [if_neg hr]
      have hxb : x.2 < b.2 := not_le.mp hr
      by_cases hx : x.2 = c
      · have hb : ¬(b.2 = c) := by
          rw [← hx]
          exact ne_of_gt hxb
        simp [List.filter_cons, hb, ih, hx]
      · by_cases hb : b.2 = c <;> simp [List.filter_cons, hb, ih, hx]

lemma filter_insertionSort (c : ℚ) (l : List (ℚ × ℚ)) :
    (l.insertionSort strength_ge).filter (fun p => p.2 = c) =
      l.filter (fun p => p.2 = c) := by
  induction l with
  | nil => rfl
  | cons x xs ih =>
    rw [List.insertionSort, filter_orderedInsert]
    by_cases hx : x.2 = c <;> simp [List.filter_cons, hx, ih]

/-! ### Concrete runs used by witnesses and counterexamples -/

lemma crun_half_ht : tempi_of [100, 120, 1/2, 1/2] 1 = [100, 120] := by
  norm_num [tempi_of, List.filter_cons, List.filter_nil]

lemma crun_half_hnc : needs_completion [100, 120, 1/2, 1/2] 1 = false := by
  have hs : strengths_of [100, 120, 1/2, 1/2] 1 = [1/2, 1/2] := by
    norm_num [strengths_of, List.filter_cons, List.filter_nil]
  simp only [needs_completion, crun_half_ht, hs]
  norm_num

lemma crun_half_hfs : final_strengths [100, 120, 1/2, 1/2] 1 false = [1/2, 1/2] := by
  have hs : strengths_of [100, 120, 1/2, 1/2] 1 = [1/2, 1/2] := by
    norm_num [strengths_of, List.filter_cons, List.filter_nil]
  have hsum : strength_sum_of [100, 120, 1/2, 1/2] 1 = 1 := by
    simp only [strength_sum_of, hs]
    norm_num
  have hcs : completed_strengths [100, 120, 1/2, 1/2] 1 = [1/2, 1/2] := by
    simp only [completed_strengths, crun_half_hnc, Bool.false_eq_true, if_false, hs]
  have huc : uniform_or_completed [100, 120, 1/2, 1/2] 1 = [1/2, 1/2] := by
    simp only [uniform_or_completed, hsum, hcs]
    norm_num
  simp only [final_strengths, Bool.false_eq_true, if_false, huc]

lemma crun_half_unsorted : load_tempo [100, 120, 1/2, 1/2] 1 false false none =
    .ok [(100, 1/2), (120, 1/2)] := by
  rw [load_tempo_eq_ok [100, 120, 1/2, 1/2] 1 false false none rfl
    (by simp only [crun_half_hnc, Bool.false_and])
    (by rw [crun_half_ht, crun_half_hfs]; rfl)]
  rw [crun_half_ht, crun_half_hfs]
  rfl

lemma crun_half_sorted : load_tempo [100, 120, 1/2, 1/2] 1 true false none =
    .ok [(100, 1/2), (120, 1/2)] := by
  rw [load_tempo_eq_ok [100, 120, 1/2, 1/2] 1 true false none rfl
    (by simp only [crun_half_hnc, Bool.false_and])
    (by rw [crun_half_ht, crun_half_hfs]; rfl)]
  rw [crun_half_ht, crun_half_hfs]
  norm_num [arrange, List.insertionSort, List.orderedInsert, strength_ge]

/-! ### Claim theorems -/

/-- C7: for every call to `load_tempo` with `max_len` not `None` and
`max_len < 1`, the call fails with the invalid-argument error, for every
input `values` (hence before and independently of any parsing of the
input values). -/
theorem load_tempo_invalid_max_len (values : List ℚ) (split_value : ℚ)
    (sort norm_strengths : Bool) (m : ℤ) (hm : m < 1) :
    load_tempo values split_value sort norm_strengths (some m) =
      .error "max_len must be greater or equal to 1" := by
  simp [load_tempo, bad_max_len, hm]

/-- Witness for C7 at `max_len = 0` and an arbitrary input. -/
theorem load_tempo_invalid_max_len_witness :
    (0 : ℤ) < 1 ∧
    load_tempo [120, 60] 1 false false (some 0) =
      .error "max_len must be greater or equal to 1" :=
  ⟨by decide, load_tempo_invalid_max_len [120, 60] 1 false false 0 (by decide)⟩

/-- C6: whenever the strength-completion step applies (exactly one more
tempo than strengths, `needs_completion`) and the completed strength
list contains a negative value, `load_tempo` fails with the
invariant-violation error. -/
theorem load_tempo_negative_completed (values : List ℚ) (split_value : ℚ)
    (sort norm_strengths : Bool) (max_len : Option ℤ)
    (hml : bad_max_len max_len = false)
    (hnc : needs_completion values split_value = true)
    (hneg : (completed_strengths values split_value).any (fun s => s < 0) = true) :
    load_tempo values split_value sort norm_strengths max_len =
      .error "strengths must be positive" := by
  simp [load_tempo, hml, hnc, hneg]

/-- With `split_value = 100`, the input `[120, 130, 140, 30, 50]` has one
more tempo than strengths and its completed strengths
`[30, 50, 1 - 80]` contain a negative value. -/
lemma c6_any_negative :
    (completed_strengths [120, 130, 140, 30, 50] 100).any (fun s => s < 0) = true := by
  have hs : strengths_of [120, 130, 140, 30, 50] 100 = [30, 50] := by
    norm_num [strengths_of, List.filter_cons, List.filter_nil]
  have hsum : strength_sum_of [120, 130, 140, 30, 50] 100 = 80 := by
    simp only [strength_sum_of, hs]
    norm_num
  have hnc : needs_completion [120, 130, 140, 30, 50] 100 = true := by
    have ht : tempi_of [120, 130, 140, 30, 50] 100 = [120, 130, 140] := by
      norm_num [tempi_of, List.filter_cons, List.filter_nil]
    simp only [needs_completion, ht, hs]
    norm_num
  simp only [completed_strengths, hnc, hs, hsum, if_true]
  norm_num

/-- Witness for C6: `[120, 130, 140, 30, 50]` with `split_value = 100`
completes the strengths to `[30, 50, -79]`, which contains a negative
value, so the call fails. -/
theorem load_tempo_negative_completed_witness :
    bad_max_len none = false ∧
    needs_completion [120, 130, 140, 30, 50] 100 = true ∧
    (completed_strengths [120, 130, 140, 30, 50] 100).any (fun s => s < 0) = true ∧
    load_tempo [120, 130, 140, 30, 50] 100 false false none =
      .error "strengths must be positive" :=
  ⟨rfl, by decide, c6_any_negative,
    load_tempo_negative_completed [120, 130, 140, 30, 50] 100 false false none
      rfl (by decide) c6_any_negative⟩

/-- C3: for every single-row input, `write_tempo` returns that row's
tempo as `t1`, a synthesized `t2` (doubled below 68 bpm, halved
otherwise) and strength `1`. -/
theorem write_tempo_single_row (t s : ℚ) :
    write_tempo [(t, s)] false = (t, if t < 68 then t * 2 else t / 2, 1) := by
  simp [write_tempo, write_tempo_raw]

/-- C4: with `mirex` set, the triple computed by `write_tempo` has `t1`
and `t2` swapped and strength replaced by `1 - strength` exactly when
the raw `t1` exceeds `t2`; otherwise the `mirex` flag changes nothing. -/
theorem write_tempo_mirex_swap (rows : List (ℚ × ℚ)) :
    write_tempo rows true =
      if (write_tempo rows false).2.1 < (write_tempo rows false).1 then
        ((write_tempo rows false).2.1, (write_tempo rows false).1,
          1 - (write_tempo rows false).2.2)
      else
        write_tempo rows false := by
  have h : write_tempo rows false = write_tempo_raw rows := by
    simp [write_tempo]
  rw [h]
  by_cases hc : (write_tempo_raw rows).2.1 < (write_tempo_raw rows).1 <;>
    simp [write_tempo, hc]

/-- C5: for the zero-row input, `write_tempo` returns the defaults
`t1 = 0`, `t2 = 0`, `strength = 1`, with or without the `mirex` flag. -/
theorem write_tempo_zero_rows (mirex : Bool) :
    write_tempo [] mirex = (0, 0, 1) := by
  cases mirex <;> simp [write_tempo, write_tempo_raw]

/-- C9 counterexample: `write_beats` does not return its input; its body
has no return statement, so it returns `None`. -/
theorem write_beats_not_input :
    write_beats [((100 : ℚ), (1 : ℚ))] ≠ some [((100 : ℚ), (1 : ℚ))] := by
  simp [write_beats]

/-- C9 (amended): `write_events`, `write_onsets` and `write_chords`
return their input unchanged; `write_beats` calls `write_events` for the
formatting but has no return statement and returns `None`. -/
theorem writers_return_values (events : List ℚ) (beats : List (ℚ × ℚ))
    (chords : List ChordSegment) :
    write_events events = some events ∧
    write_onsets events = some events ∧
    write_chords chords = some chords ∧
    write_beats beats = none :=
  ⟨rfl, rfl, rfl, rfl⟩

/-! ### Concrete run for C1: completion followed by normalization -/

lemma crun_c1_ht : tempi_of [120, 60, 7/10] 1 = [120, 60] := by
  norm_num [tempi_of, List.filter_cons, List.filter_nil]

lemma crun_c1_hs : strengths_of [120, 60, 7/10] 1 = [7/10] := by
  norm_num [strengths_of, List.filter_cons, List.filter_nil]

lemma crun_c1_hsum : strength_sum_of [120, 60, 7/10] 1 = 7/10 := by
  simp only [strength_sum_of, crun_c1_hs]
  norm_num

lemma crun_c1_hnc : needs_completion [120, 60, 7/10] 1 = true := by
  simp only [needs_completion, crun_c1_ht, crun_c1_hs]
  norm_num

lemma crun_c1_hcs : completed_strengths [120, 60, 7/10] 1 = [7/10, 3/10] := by
  simp only [completed_strengths, crun_c1_hnc, eq_self_iff_true, if_true,
    crun_c1_hs, crun_c1_hsum]
  norm_num

lemma crun_c1_guard :
    (needs_completion [120, 60, 7/10] 1 &&
      (completed_strengths [120, 60, 7/10] 1).any (fun s => s < 0)) = false := by
  rw [crun_c1_hnc, Bool.true_and, crun_c1_hcs, List.any_eq_false]
  intro x hx
  rcases List.mem_cons.mp hx with h | h
  · subst h
    norm_num
  · rcases List.mem_cons.mp h with h2 | h2
    · subst h2
      norm_num
    · simp at h2

lemma crun_c1_hfs : final_strengths [120, 60, 7/10] 1 true = [1, 3/7] := by
  have huc : uniform_or_completed [120, 60, 7/10] 1 = [7/10, 3/10] := by
    simp only [uniform_or_completed, crun_c1_hsum, crun_c1_hcs]
    norm_num
  simp only [final_strengths, eq_self_iff_true, if_true, huc, crun_c1_hsum]
  norm_num

lemma crun_c1 : load_tempo [120, 60, 7/10] 1 false true none =
    .ok [(120, 1), (60, 3/7)] := by
  rw [load_tempo_eq_ok [120, 60, 7/10] 1 false true none rfl crun_c1_guard
    (by rw [crun_c1_ht, crun_c1_hfs]; rfl)]
  rw [crun_c1_ht, crun_c1_hfs]
  rfl

/-- C1 counterexample: on `[120, 60, 0.7]` the completion step produces
strengths `[0.7, 0.3]`, and normalization divides by the pre-completion
sum `0.7`, so the returned strengths are `[1, 3/7]`, which sum to `10/7`,
not `1`. -/
theorem load_tempo_norm_not_sum_one :
    load_tempo [120, 60, 7/10] 1 false true none = .ok [(120, 1), (60, 3/7)] ∧
    (([(120, 1), (60, 3/7)] : List (ℚ × ℚ)).map Prod.snd).sum ≠ 1 := by
  refine ⟨crun_c1, ?_⟩
  norm_num [List.map_cons, List.map_nil]

/-- C1 (amended): the returned rows always pair one tempo with one
strength; when `norm_strengths` is set, equally many tempi and strengths
were supplied (so neither the completion nor the uniform-distribution
step runs), the captured strength sum is nonzero, and `max_len` does not
truncate, the returned strengths sum to `1` and one row is returned per
tempo. -/
theorem load_tempo_norm_sum_one (values : List ℚ) (split_value : ℚ) (sort : Bool)
    (hlen : (tempi_of values split_value).length =
      (strengths_of values split_value).length)
    (hsum : strength_sum_of values split_value ≠ 0) :
    ∃ r, load_tempo values split_value sort true none = .ok r ∧
      (r.map Prod.snd).sum = 1 ∧
      r.length = (tempi_of values split_value).length := by
  have hnc : needs_completion values split_value = false := by
    simp [needs_completion, hlen]
  have huc : uniform_or_completed values split_value =
      strengths_of values split_value := by
    simp [uniform_or_completed, completed_strengths, hnc, hsum]
  have hfs : final_strengths values split_value true =
      (strengths_of values split_value).map
        (fun s => s / strength_sum_of values split_value) := by
    simp [final_strengths, huc]
  have hflen : (final_strengths values split_value true).length =
      (tempi_of values split_value).length := by
    rw [hfs, List.length_map, hlen]
  have hok := load_tempo_eq_ok values split_value sort true none rfl
    (by simp [hnc]) hflen.symm
  have hperm := arrange_none_perm
    ((tempi_of values split_value).zip (final_strengths values split_value true)) sort
  have hmap : ((tempi_of values split_value).zip
      (final_strengths values split_value true)).map Prod.snd =
      final_strengths values split_value true :=
    List.map_snd_zip _ _ (le_of_eq hflen)
  refine ⟨_, hok, ?_, ?_⟩
  · rw [(hperm.map Prod.snd).sum_eq, hmap, hfs, sum_map_div]
    exact div_self hsum
  · rw [hperm.length_eq, List.length_zip, hflen, min_self]

lemma c1w_sum_ne : strength_sum_of [120, 130, 30, 50] 100 ≠ 0 := by
  have hs : strengths_of [120, 130, 30, 50] 100 = [30, 50] := by
    norm_num [strengths_of, List.filter_cons, List.filter_nil]
  simp only [strength_sum_of, hs]
  norm_num

/-- Witness for C1 (amended) at `[120, 130, 30, 50]` with
`split_value = 100`: two tempi, two strengths, sum `80 ≠ 0`. -/
theorem load_tempo_norm_sum_one_witness :
    ((tempi_of [120, 130, 30, 50] 100).length =
      (strengths_of [120, 130, 30, 50] 100).length) ∧
    strength_sum_of [120, 130, 30, 50] 100 ≠ 0 ∧
    ∃ r, load_tempo [120, 130, 30, 50] 100 false true none = .ok r ∧
      (r.map Prod.snd).sum = 1 ∧
      r.length = (tempi_of [120, 130, 30, 50] 100).length :=
  ⟨by decide, c1w_sum_ne,
    load_tempo_norm_sum_one [120, 130, 30, 50] 100 false (by decide) c1w_sum_ne⟩

/-- C2: with `sort` set, the rows returned by `load_tempo` are ordered by
descending strength, and the rows of any one strength value appear in
the same relative order as in the unsorted result (the sort is stable). -/
theorem load_tempo_sort_stable (values : List ℚ) (split_value c : ℚ)
    (norm_strengths : Bool) (r₀ r : List (ℚ × ℚ))
    (h₀ : load_tempo values split_value false norm_strengths none = .ok r₀)
    (h₁ : load_tempo values split_value true norm_strengths none = .ok r) :
    r.Pairwise strength_ge ∧
      r.filter (fun p => p.2 = c) = r₀.filter (fun p => p.2 = c) := by
  obtain ⟨-, -, -, hr₀⟩ := load_tempo_ok_inv h₀
  obtain ⟨-, -, -, hr⟩ := load_tempo_ok_inv h₁
  subst hr₀
  subst hr
  constructor
  · have hs := List.sorted_insertionSort strength_ge
      ((tempi_of values split_value).zip
        (final_strengths values split_value norm_strengths))
    simpa [arrange, List.Sorted] using hs
  · simpa [arrange] using filter_insertionSort c
      ((tempi_of values split_value).zip
        (final_strengths values split_value norm_strengths))

/-- Witness for C2 at `[100, 120, 0.5, 0.5]`: the strengths tie, and the
sorted result keeps `100` before `120`, matching the unsorted result. -/
theorem load_tempo_sort_stable_witness :
    load_tempo [100, 120, 1/2, 1/2] 1 false false none =
      .ok [(100, 1/2), (120, 1/2)] ∧
    load_tempo [100, 120, 1/2, 1/2] 1 true false none =
      .ok [(100, 1/2), (120, 1/2)] ∧
    (([(100, 1/2), (120, 1/2)] : List (ℚ × ℚ)).Pairwise strength_ge ∧
      ([(100, 1/2), (120, 1/2)] : List (ℚ × ℚ)).filter (fun p => p.2 = 1/2) =
        ([(100, 1/2), (120, 1/2)] : List (ℚ × ℚ)).filter (fun p => p.2 = 1/2)) :=
  ⟨crun_half_unsorted, crun_half_sorted,
    load_tempo_sort_stable [100, 120, 1/2, 1/2] 1 (1/2) false
      [(100, 1/2), (120, 1/2)] [(100, 1/2), (120, 1/2)]
      crun_half_unsorted crun_half_sorted⟩

/-! ### Concrete runs for C8: a supplied negative strength is returned -/

lemma crun_c8_neg : load_tempo [120, 130, -5, 50] 100 false false none =
    .ok [(120, -5), (130, 50)] := by
  have ht : tempi_of [120, 130, -5, 50] 100 = [120, 130] := by
    norm_num [tempi_of, List.filter_cons, List.filter_nil]
  have hs : strengths_of [120, 130, -5, 50] 100 = [-5, 50] := by
    norm_num [strengths_of, List.filter_cons, List.filter_nil]
  have hsum : strength_sum_of [120, 130, -5, 50] 100 = 45 := by
    simp only [strength_sum_of, hs]
    norm_num
  have hnc : needs_completion [120, 130, -5, 50] 100 = false := by
    simp only [needs_completion, ht, hs]
    norm_num
  have hfs : final_strengths [120, 130, -5, 50] 100 false = [-5, 50] := by
    have hcs : completed_strengths [120, 130, -5, 50] 100 = [-5, 50] := by
      simp only [completed_strengths, hnc, Bool.false_eq_true, if_false, hs]
    have huc : uniform_or_completed [120, 130, -5, 50] 100 = [-5, 50] := by
      simp only [uniform_or_completed, hsum, hcs]
      norm_num
    simp only [final_strengths, Bool.false_eq_true, if_false, huc]
  rw [load_tempo_eq_ok [120, 130, -5, 50] 100 false false none rfl
    (by simp only [hnc, Bool.false_and]) (by rw [ht, hfs]; rfl)]
  rw [ht, hfs]
  rfl

lemma crun_c8_pos : load_tempo [120, 130, 30, 50] 100 false false none =
    .ok [(120, 30), (130, 50)] := by
  have ht : tempi_of [120, 130, 30, 50] 100 = [120, 130] := by
    norm_num [tempi_of, List.filter_cons, List.filter_nil]
  have hs : strengths_of [120, 130, 30, 50] 100 = [30, 50] := by
    norm_num [strengths_of, List.filter_cons, List.filter_nil]
  have hsum : strength_sum_of [120, 130, 30, 50] 100 = 80 := by
    simp only [strength_sum_of, hs]
    norm_num
  have hnc : needs_completion [120, 130, 30, 50] 100 = false := by
    simp only [needs_completion, ht, hs]
    norm_num
  have hfs : final_strengths [120, 130, 30, 50] 100 false = [30, 50] := by
    have hcs : completed_strengths [120, 130, 30, 50] 100 = [30, 50] := by
      simp only [completed_strengths, hnc, Bool.false_eq_true, if_false, hs]
    have huc : uniform_or_completed [120, 130, 30, 50] 100 = [30, 50] := by
      simp only [uniform_or_completed, hsum, hcs]
      norm_num
    simp only [final_strengths, Bool.false_eq_true, if_false, huc]
  rw [load_tempo_eq_ok [120, 130, 30, 50] 100 false false none rfl
    (by simp only [hnc, Bool.false_and]) (by rw [ht, hfs]; rfl)]
  rw [ht, hfs]
  rfl

/-- C8 counterexample: `load_tempo [120, 130, -5, 50]` with
`split_value = 100` succeeds and returns the supplied negative strength
`-5` unchanged (the negativity check only runs on the completion path). -/
theorem load_tempo_negative_strength_returned :
    load_tempo [120, 130, -5, 50] 100 false false none =
      .ok [(120, -5), (130, 50)] ∧
    ((120 : ℚ), (-5 : ℚ)) ∈ ([(120, -5), (130, 50)] : List (ℚ × ℚ)) ∧
    ((-5 : ℚ) < 0) := by
  refine ⟨crun_c8_neg, ?_, by norm_num⟩
  simp

/-- C8 (amended): when every input value classified as a strength (value
at most `split_value`) is non-negative, every strength in a successfully
returned array is non-negative. -/
theorem load_tempo_nonneg (values : List ℚ) (split_value : ℚ)
    (sort norm_strengths : Bool) (max_len : Option ℤ) (r : List (ℚ × ℚ))
    (hpos : ∀ v ∈ values, v ≤ split_value → 0 ≤ v)
    (hok : load_tempo values split_value sort norm_strengths max_len = .ok r) :
    ∀ p ∈ r, 0 ≤ p.2 := by
  obtain ⟨-, hg2, -, hr⟩ := load_tempo_ok_inv hok
  subst hr
  have hs0 : ∀ x ∈ strengths_of values split_value, 0 ≤ x := by
    intro x hx
    rw [strengths_of, List.mem_filter] at hx
    exact hpos x hx.1 (by simpa using hx.2)
  have hsum : 0 ≤ strength_sum_of values split_value := List.sum_nonneg hs0
  have hcomp : ∀ x ∈ completed_strengths values split_value, 0 ≤ x := by
    by_cases hnc : needs_completion values split_value = true
    · rw [hnc, Bool.true_and] at hg2
      intro x hx
      have hne := List.any_eq_false.mp hg2 x hx
      exact le_of_not_lt (by simpa using hne)
    · simp only [completed_strengths, if_neg hnc]
      exact hs0
  have huoc : ∀ x ∈ uniform_or_completed values split_value, 0 ≤ x := by
    simp only [uniform_or_completed]
    split
    · intro x hx
      obtain ⟨y, -, hy⟩ := List.mem_map.mp hx
      rw [← hy]
      exact one_div_nonneg.mpr (Nat.cast_nonneg _)
    · exact hcomp
  have hfin : ∀ x ∈ final_strengths values split_value norm_strengths, 0 ≤ x := by
    simp only [final_strengths]
    split
    · intro x hx
      obtain ⟨y, hy, hxy⟩ := List.mem_map.mp hx
      rw [← hxy]
      exact div_nonneg (huoc y hy) hsum
    · exact huoc
  intro p hp
  obtain ⟨p1, p2⟩ := p
  exact hfin _ (List.of_mem_zip (mem_arrange hp)).2

/-- Witness for C8 (amended) at `[120, 130, 30, 50]` with
`split_value = 100`: all supplied strengths are non-negative and so are
the returned ones. -/
theorem load_tempo_nonneg_witness :
    (∀ v ∈ ([120, 130, 30, 50] : List ℚ), v ≤ 100 → 0 ≤ v) ∧
    load_tempo [120, 130, 30, 50] 100 false false none =
      .ok [(120, 30), (130, 50)] ∧
    ∀ p ∈ ([(120, 30), (130, 50)] : List (ℚ × ℚ)), 0 ≤ p.2 :=
  ⟨by decide, crun_c8_pos,
    load_tempo_nonneg [120, 130, 30, 50] 100 false false none
      [(120, 30), (130, 50)] (by decide) crun_c8_pos⟩

/-- C10: when every value exceeds `split_value` (no strengths supplied,
captured strength sum zero) and `norm_strengths` is set, `load_tempo`
does not fail: it divides the uniform strengths by the zero sum without
any guard and returns strengths that do not sum to `1`. -/
theorem load_tempo_zero_sum_norm (values : List ℚ) (split_value : ℚ)
    (sort : Bool) (max_len : Option ℤ)
    (hall : ∀ v ∈ values, split_value < v)
    (hml : bad_max_len max_len = false) :
    ∃ r, load_tempo values split_value sort true max_len = .ok r ∧
      (r.map Prod.snd).sum ≠ 1 := by
  have hs0 : strengths_of values split_value = [] := by
    rw [strengths_of, List.filter_eq_nil_iff]
    intro v hv
    simpa using not_le.mpr (hall v hv)
  have hsum : strength_sum_of values split_value = 0 := by
    rw [strength_sum_of, hs0]
    rfl
  have huc : uniform_or_completed values split_value =
      (tempi_of values split_value).map
        (fun _ => 1 / ((tempi_of values split_value).length : ℚ)) := by
    simp [uniform_or_completed, hsum]
  have hfin : final_strengths values split_value true =
      (tempi_of values split_value).map (fun _ => (0 : ℚ)) := by
    rw [final_strengths, if_pos rfl, huc, List.map_map]
    refine List.map_congr_left ?_
    intro a ha
    simp [hsum]
  have hg2 : (needs_completion values split_value &&
      (completed_strengths values split_value).any (fun s => s < 0)) = false := by
    by_cases hnc : needs_completion values split_value = true
    · have hcs : completed_strengths values split_value = [1 - 0] := by
        rw [completed_strengths, if_pos hnc, hs0, hsum]
        rfl
      rw [hnc, hcs, Bool.true_and, List.any_eq_false]
      intro x hx
      rcases List.mem_cons.mp hx with h | h
      · subst h
        norm_num
      · simp at h
    · have hnf : needs_completion values split_value = false := by
        simpa using hnc
      rw [hnf, Bool.false_and]
  have hflen : (tempi_of values split_value).length =
      (final_strengths values split_value true).length := by
    rw [hfin, List.length_map]
  have hok := load_tempo_eq_ok values split_value sort true max_len hml hg2 hflen
  refine ⟨_, hok, ?_⟩
  have hz : ((arrange ((tempi_of values split_value).zip
      (final_strengths values split_value true)) sort max_len).map Prod.snd).sum
      = 0 := by
    apply List.sum_eq_zero
    intro x hx
    obtain ⟨p, hp, hpx⟩ := List.mem_map.mp hx
    obtain ⟨p1, p2⟩ := p
    have hmem := (List.of_mem_zip (mem_arrange hp)).2
    rw [hfin] at hmem
    obtain ⟨y, -, hy⟩ := List.mem_map.mp hmem
    rw [← hpx]
    exact hy.symm
  rw [hz]
  exact zero_ne_one

/-- Witness for C10 at `[120, 130]`: both values exceed the default
`split_value = 1`, so the uniform strengths are divided by the zero sum
and the returned strengths sum to `0`, not `1`. -/
theorem load_tempo_zero_sum_norm_witness :
    (∀ v ∈ ([120, 130] : List ℚ), (1 : ℚ) < v) ∧
    bad_max_len none = false ∧
    ∃ r, load_tempo [120, 130] 1 false true none = .ok r ∧
      (r.map Prod.snd).sum ≠ 1 :=
  ⟨by decide, rfl,
    load_tempo_zero_sum_norm [120, 130] 1 false none (by decide) rfl⟩

end MadmomIO
